import Mathlib

/-!
Verification of the group-assignment engine (`src/api/services/assigner.py` and
`src/notebooks/utils/evaluation.py`) against its design specification.

The Python code is shallowly embedded: participants are the integers 1..N,
a round assignment is a list of rooms (position j holds room j+1's member
list), a schedule is a list of rounds.  Randomness (`random.shuffle`,
`random.choice`) is modelled by universally quantified oracles: a shuffle
oracle supplies each round's shuffled participant list (hypothesis: it is a
permutation of 1..N), and a chooser oracle models `random.choice` on a set.
The external MILP solver of `OptimizationAssigner` is an oracle returning
either variable values or `none` (non-optimal status).  Python exceptions
(`HTTPException`) are modelled with `Except` / `Option`.
-/

set_option maxRecDepth 4000

/-- Participant list `self.participants = list(range(1, total_participants + 1))`. -/
def participants_list (N : ℕ) : List ℕ := List.range' 1 N

/-- The participant identities as a finite set: 1..N. -/
def participants_set (N : ℕ) : Finset ℕ := Finset.Icc 1 N

/-- `BaseAssigner._get_room_size`: `self.room_size + (1 if room <= self.remainder else 0)`
with `self.room_size = N // R` and `self.remainder = N % R`. -/
def get_room_size (N R room : ℕ) : ℕ :=
  N / R + (if room ≤ N % R then 1 else 0)

/-- The per-room capacities in room-id order (position `i` is room `i+1`). -/
def caps_list (N R : ℕ) : List ℕ :=
  (List.range R).map (fun i => get_room_size N R (i + 1))

lemma participants_list_nodup (N : ℕ) : (participants_list N).Nodup := by
  simpa [participants_list] using List.nodup_range' (s := 1) (n := N)

lemma mem_participants_list {N m : ℕ} :
    m ∈ participants_list N ↔ 1 ≤ m ∧ m ≤ N := by
  simp only [participants_list, List.mem_range'_1]
  omega

lemma participants_list_toFinset (N : ℕ) :
    (participants_list N).toFinset = participants_set N := by
  ext m
  simp [mem_participants_list, participants_set]

lemma participants_list_length (N : ℕ) : (participants_list N).length = N := by
  simp [participants_list]

lemma caps_list_length (N R : ℕ) : (caps_list N R).length = R := by
  simp [caps_list]

lemma caps_list_eq {N R : ℕ} (hR : 1 ≤ R) :
    caps_list N R
      = List.replicate (N % R) (N / R + 1) ++ List.replicate (R - N % R) (N / R) := by
  have hmod : N % R < R := Nat.mod_lt _ hR
  apply List.ext_getElem
  · simp [caps_list]
    omega
  · intro i h1 h2
    simp only [caps_list, List.getElem_map, List.getElem_range]
    rcases lt_or_le i (N % R) with hi | hi
    · rw [List.getElem_append_left (by simpa using hi)]
      simp [get_room_size, List.getElem_replicate, Nat.succ_le_of_lt hi]
    · rw [List.getElem_append_right (by simpa using hi)]
      have : ¬ (i + 1 ≤ N % R) := by omega
      simp [get_room_size, List.getElem_replicate, this]

lemma caps_list_sum {N R : ℕ} (hR : 1 ≤ R) : (caps_list N R).sum = N := by
  have hmod : N % R < R := Nat.mod_lt _ hR
  rw [caps_list_eq hR]
  rw [List.sum_append, List.sum_replicate, List.sum_replicate, smul_eq_mul, smul_eq_mul]
  have h1 : N % R * (N / R + 1) = N % R * (N / R) + N % R := by ring
  have h2 : (R - N % R) * (N / R) = R * (N / R) - N % R * (N / R) := by
    exact Nat.sub_mul R (N % R) (N / R)
  have h3 : N % R * (N / R) ≤ R * (N / R) :=
    Nat.mul_le_mul_right _ (Nat.le_of_lt hmod)
  have h4 : R * (N / R) + N % R = N := Nat.div_add_mod N R
  omega

lemma caps_list_count_big {N R : ℕ} (hR : 1 ≤ R) :
    (caps_list N R).count (N / R + 1) = N % R := by
  rw [caps_list_eq hR, List.count_append, List.count_replicate, List.count_replicate]
  simp

lemma caps_list_mem_le {N R c : ℕ} (hR : 1 ≤ R) (hc : c ∈ caps_list N R) :
    N / R ≤ c ∧ c ≤ N / R + 1 := by
  rw [caps_list_eq hR] at hc
  rcases List.mem_append.1 hc with h | h <;>
    · have := List.eq_of_mem_replicate h
      omega

/-- `frozenset((a, b))`: an unordered pair of participants is represented by
its normalized form (smaller id first). -/
def fkey (a b : ℕ) : ℕ × ℕ := (min a b, max a b)

lemma fkey_comm (a b : ℕ) : fkey a b = fkey b a := by
  simp [fkey, Nat.min_comm, Nat.max_comm]

/-- `itertools.combinations(l, 2)` in the order Python generates it. -/
def listPairs : List ℕ → List (ℕ × ℕ)
  | [] => []
  | x :: xs => xs.map (fun y => (x, y)) ++ listPairs xs

lemma listPairs_length (l : List ℕ) : (listPairs l).length = l.length.choose 2 := by
  induction l with
  | nil => rfl
  | cons x xs ih =>
      simp only [listPairs, List.length_append, List.length_map, ih, List.length_cons]
      rw [Nat.choose_succ_succ xs.length 1, Nat.choose_one_right]

/-- The multiset of normalized (frozenset) pairs of co-members of one room. -/
def pairsM : List ℕ → Multiset (ℕ × ℕ)
  | [] => 0
  | x :: xs => ((xs.map (fun y => fkey x y) : List (ℕ × ℕ)) : Multiset (ℕ × ℕ)) + pairsM xs

/-- `pairsM` is the multiset of `frozenset(p)` over `p ∈ itertools.combinations(l, 2)`. -/
lemma pairsM_eq_listPairs (l : List ℕ) :
    pairsM l = (((listPairs l).map (fun p => fkey p.1 p.2) : List (ℕ × ℕ)) : Multiset (ℕ × ℕ)) := by
  induction l with
  | nil => rfl
  | cons x xs ih =>
      show _ = ((((xs.map (fun y => (x, y)) ++ listPairs xs).map (fun p => fkey p.1 p.2) : List (ℕ × ℕ))) : Multiset (ℕ × ℕ))
      rw [List.map_append, ← Multiset.coe_add, List.map_map]
      show _ + pairsM xs = _
      rw [ih]
      rfl

lemma pairsM_card (l : List ℕ) : (pairsM l).card = l.length.choose 2 := by
  rw [pairsM_eq_listPairs]
  simp [listPairs_length]

lemma pairsM_append_singleton_count (l : List ℕ) (c : ℕ) (k : ℕ × ℕ) :
    (pairsM (l ++ [c])).count k
      = (pairsM l).count k
        + Multiset.count k ((l.map (fun m => fkey c m) : List (ℕ × ℕ)) : Multiset (ℕ × ℕ)) := by
  induction l with
  | nil => simp [pairsM]
  | cons x xs ih =>
      show ((((xs ++ [c]).map (fun y => fkey x y) : List (ℕ × ℕ)) : Multiset (ℕ × ℕ)) + pairsM (xs ++ [c])).count k = _
      rw [List.map_append, ← Multiset.coe_add, Multiset.count_add, Multiset.count_add, ih]
      show _ = (((xs.map (fun y => fkey x y) : List (ℕ × ℕ)) : Multiset (ℕ × ℕ)) + pairsM xs).count k
        + Multiset.count k (((fkey c x :: xs.map (fun m => fkey c m) : List (ℕ × ℕ)) : List (ℕ × ℕ)) : Multiset (ℕ × ℕ))
      rw [Multiset.count_add, ← Multiset.cons_coe, Multiset.count_cons]
      simp only [List.map_cons, List.map_nil]
      have h1 : Multiset.count k (((fkey x c :: [] : List (ℕ × ℕ)) : List (ℕ × ℕ)) : Multiset (ℕ × ℕ))
          = if k = fkey c x then 1 else 0 := by
        rw [fkey_comm x c, ← Multiset.cons_coe, Multiset.count_cons]
        simp
      rw [h1]
      omega

/-- A round assignment: position `j` holds the member list of room `j + 1`. -/
abbrev RoundAssignment := List (List ℕ)

/-- A schedule: the ordered list of round assignments. -/
abbrev Schedule := List RoundAssignment

/-- All normalized pairs of one round (over its rooms, in room order). -/
def roundPairsM (rooms : RoundAssignment) : Multiset (ℕ × ℕ) :=
  (rooms.map pairsM).sum

/-- All normalized pairs of a whole schedule, with multiplicity: the multiset of
increments performed by `calc_pair_frequencies` (one per pair per room per round). -/
def all_pairs (s : Schedule) : Multiset (ℕ × ℕ) :=
  (s.map roundPairsM).sum

/-- `calc_pair_frequencies` (evaluation.py): the pair-frequency map as a function
from a normalized pair to its occurrence count; pairs that never co-occurred
are absent from the Python dict, i.e. map to 0 here. -/
def calc_pair_frequencies (s : Schedule) (k : ℕ × ℕ) : ℕ :=
  (all_pairs s).count k

/-- The support of the pair-frequency dict: the keys actually present. -/
def pair_freq_support (s : Schedule) : Finset (ℕ × ℕ) :=
  (all_pairs s).toFinset

lemma all_pairs_append (s t : Schedule) :
    all_pairs (s ++ t) = all_pairs s + all_pairs t := by
  simp [all_pairs]

lemma all_pairs_singleton (r : RoundAssignment) :
    all_pairs [r] = roundPairsM r := by
  simp [all_pairs, roundPairsM]

/-- `list(pair_frequencies.values())` in `evaluate_pair_fairness`: the multiset of
dict values (one per key present). -/
def freq_values (s : Schedule) : Multiset ℚ :=
  (pair_freq_support s).val.map (fun k => ((all_pairs s).count k : ℚ))

/-- `np.mean(frequencies)` over the dict values (exact rational arithmetic);
on an empty value list numpy returns NaN, modelled as `none`. -/
def freq_mean (s : Schedule) : Option ℚ :=
  if freq_values s = 0 then none
  else some ((freq_values s).sum / (freq_values s).card)

/-- The population variance of the dict values: `np.std(frequencies)` is its
(nonnegative) square root, so `np.std` is 0 exactly when this is `some 0`;
on an empty value list numpy returns NaN, modelled as `none`. -/
def freq_var (s : Schedule) : Option ℚ :=
  match freq_mean s with
  | none => none
  | some m => some (((freq_values s).map (fun v => (v - m) ^ 2)).sum / (freq_values s).card)

/-- C7 helper: the sum of all values of the frequency dict is the number of
increment operations. -/
lemma sum_freq_eq_card (s : Schedule) :
    ∑ k ∈ pair_freq_support s, calc_pair_frequencies s k = (all_pairs s).card := by
  simp [pair_freq_support, calc_pair_frequencies,
    Multiset.toFinset_sum_count_eq (all_pairs s)]

/-- C5: for 1 ≤ R ≤ N, with base = N div R and remainder = N mod R,
`_get_room_size` gives base+1 on rooms 1..remainder and base on rooms
remainder+1..R, the capacities over rooms 1..R sum to N, exactly remainder
rooms get the larger size, and any two capacities differ by at most 1.
Determinism is inherent: `get_room_size` is a pure function of (N, R, room). -/
theorem get_room_size_spec (N R : ℕ) (hR : 1 ≤ R) (hRN : R ≤ N) :
    (∀ room, 1 ≤ room → room ≤ N % R → get_room_size N R room = N / R + 1)
    ∧ (∀ room, N % R < room → get_room_size N R room = N / R)
    ∧ (∑ room ∈ Finset.Icc 1 R, get_room_size N R room) = N
    ∧ (caps_list N R).count (N / R + 1) = N % R
    ∧ (∀ r1 r2, get_room_size N R r1 ≤ get_room_size N R r2 + 1) := by
  refine ⟨?_, ?_, ?_, caps_list_count_big hR, ?_⟩
  · intro room _ h2
    simp [get_room_size, h2]
  · intro room h
    have : ¬ (room ≤ N % R) := by omega
    simp [get_room_size, this]
  · have hmod : N % R < R := Nat.mod_lt _ hR
    show (∑ room ∈ Finset.Icc 1 R, (N / R + if room ≤ N % R then 1 else 0)) = N
    rw [Finset.sum_add_distrib, Finset.sum_const, Finset.sum_boole]
    have hfil : (Finset.Icc 1 R).filter (fun room => room ≤ N % R) = Finset.Icc 1 (N % R) := by
      ext room
      simp only [Finset.mem_filter, Finset.mem_Icc]
      omega
    rw [hfil]
    rw [Nat.card_Icc, Nat.card_Icc, smul_eq_mul]
    simp only [Nat.add_sub_cancel, Nat.cast_id]
    have h4 : R * (N / R) + N % R = N := Nat.div_add_mod N R
    omega
  · intro r1 r2
    simp only [get_room_size]
    by_cases h1 : r1 ≤ N % R <;> by_cases h2 : r2 ≤ N % R <;> simp [h1, h2] <;> omega

lemma card_list_sum {α : Type} (l : List (Multiset α)) :
    (l.sum).card = (l.map Multiset.card).sum := by
  induction l with
  | nil => simp
  | cons x xs ih => simp [ih]

/-- C7: the sum of all values of `calc_pair_frequencies(schedule)` equals the
sum over all rounds and rooms of C(roomSize, 2): every iteration of
`itertools.combinations(participants, 2)` performs exactly one increment. -/
theorem calc_pair_frequencies_total (s : Schedule) :
    ∑ k ∈ pair_freq_support s, calc_pair_frequencies s k
      = (s.map (fun round => (round.map (fun room => room.length.choose 2)).sum)).sum := by
  rw [sum_freq_eq_card]
  show ((s.map roundPairsM).sum).card = _
  rw [card_list_sum, List.map_map]
  congr 1
  apply List.map_congr_left
  intro round _
  show ((round.map pairsM).sum).card = _
  rw [card_list_sum, List.map_map]
  congr 1
  apply List.map_congr_left
  intro room _
  exact pairsM_card room

lemma freq_values_card (s : Schedule) :
    (freq_values s).card = (pair_freq_support s).card := by
  simp [freq_values]

/-- C9 counterexample: the schedule produced for the valid input
N = 1, R = 1, T = 1 — one round with the single room [1] — has no repeated
pair (it has no pair at all), so it satisfies the claim's hypothesis; yet its
frequency dict is empty, `list(pair_frequencies.values())` is `[]`, and
`np.mean([])` / `np.std([])` are NaN (`none`), not 0: the claimed
"standard deviation 0" fails on this schedule. -/
theorem no_repeat_fairness_cex :
    (all_pairs [[[1]]]).Nodup
    ∧ pair_freq_support [[[1]]] = ∅
    ∧ freq_mean [[[1]]] = none
    ∧ freq_var [[[1]]] = none
    ∧ freq_var [[[1]]] ≠ some 0 :=
  ⟨by decide, by decide, by decide, by decide, by decide⟩

/-- C9 (amended): on a schedule in which no unordered pair co-occurs in more
than one room of more than one round (every pair of `all_pairs` occurs once)
AND at least one pair co-occurs, every value of the pair-frequency dict is 1,
`np.mean` of the values is 1 and the population variance is `some 0` — hence
`np.std`, its square root, is 0.  (Without a co-occurring pair the dict is
empty and `np.mean([])` / `np.std([])` are NaN, not 0 — see
the counterexample.) -/
theorem no_repeat_fairness_spec (s : Schedule)
    (hnd : (all_pairs s).Nodup) (hne : all_pairs s ≠ 0) :
    (∀ k ∈ pair_freq_support s, calc_pair_frequencies s k = 1)
    ∧ freq_mean s = some 1 ∧ freq_var s = some 0 := by
  have hcount : ∀ k ∈ pair_freq_support s, calc_pair_frequencies s k = 1 := by
    intro k hk
    have hk' : k ∈ all_pairs s := by
      simpa [pair_freq_support] using hk
    exact Multiset.count_eq_one_of_mem hnd hk'
  have hvals : freq_values s = Multiset.replicate (pair_freq_support s).card (1 : ℚ) := by
    unfold freq_values
    have : ∀ k ∈ (pair_freq_support s).val, (((all_pairs s).count k : ℚ)) = (1 : ℚ) := by
      intro k hk
      have := hcount k (by simpa [pair_freq_support] using hk)
      simp only [calc_pair_frequencies] at this
      rw [this]
      norm_num
    rw [Multiset.map_congr rfl this, Multiset.map_const']
    simp
  have hposcard : 0 < (pair_freq_support s).card := by
    rcases Multiset.exists_mem_of_ne_zero hne with ⟨k, hk⟩
    have : k ∈ pair_freq_support s := by simpa [pair_freq_support] using hk
    exact Finset.card_pos.2 ⟨k, this⟩
  have hvne : freq_values s ≠ 0 := by
    intro h0
    have hc := freq_values_card s
    rw [h0, Multiset.card_zero] at hc
    omega
  have hmean : freq_mean s = some 1 := by
    unfold freq_mean
    rw [if_neg hvne, hvals]
    rw [Multiset.sum_replicate, Multiset.card_replicate]
    congr 1
    field_simp
  refine ⟨hcount, hmean, ?_⟩
  have hvar : freq_var s
      = some ((((freq_values s).map (fun v => (v - (1 : ℚ)) ^ 2)).sum)
          / ((freq_values s).card : ℚ)) := by
    unfold freq_var
    rw [hmean]
  rw [hvar, hvals]
  have hmap : Multiset.map (fun v => (v - (1 : ℚ)) ^ 2) (Multiset.replicate (pair_freq_support s).card (1 : ℚ))
      = Multiset.replicate (pair_freq_support s).card (0 : ℚ) := by
    rw [Multiset.map_replicate]
    norm_num
  rw [hmap, Multiset.sum_replicate]
  simp

/-- `RandomAssigner.generate_assignments` inner loop: walk the shuffled list,
giving room r the next `_get_room_size(r)` participants (`idx` bookkeeping is
the implicit drop). -/
def slice_rooms (N R : ℕ) : List ℕ → List ℕ → RoundAssignment
  | [], _ => []
  | r :: rs, rest =>
      rest.take (get_room_size N R r) :: slice_rooms N R rs (rest.drop (get_room_size N R r))

/-- One round of `RandomAssigner`: rooms 1..R sliced from the shuffled list. -/
def random_round (N R : ℕ) (shuffled : List ℕ) : RoundAssignment :=
  slice_rooms N R ((List.range R).map (fun i => i + 1)) shuffled

/-- `RandomAssigner.generate_assignments`: `total_rounds` independent rounds,
round `t` built from the `t`-th shuffle of the participant list. -/
def random_generate_assignments (N R T : ℕ) (shuffles : ℕ → List ℕ) : Schedule :=
  (List.range T).map (fun t => random_round N R (shuffles t))

lemma slice_rooms_spec (N R : ℕ) :
    ∀ (rs : List ℕ) (rest : List ℕ),
      (rs.map (get_room_size N R)).sum ≤ rest.length →
      (slice_rooms N R rs rest).map List.length = rs.map (get_room_size N R)
      ∧ (slice_rooms N R rs rest).flatten = rest.take ((rs.map (get_room_size N R)).sum) := by
  intro rs
  induction rs with
  | nil => intro rest _; simp [slice_rooms]
  | cons r rs ih =>
      intro rest hlen
      simp only [List.map_cons, List.sum_cons] at hlen ⊢
      have h1 : get_room_size N R r ≤ rest.length := by omega
      have h2 : (rs.map (get_room_size N R)).sum ≤ (rest.drop (get_room_size N R r)).length := by
        rw [List.length_drop]
        omega
      obtain ⟨ihl, ihj⟩ := ih (rest.drop (get_room_size N R r)) h2
      refine ⟨?_, ?_⟩
      · simp [slice_rooms, ihl, List.length_take, Nat.min_eq_left h1]
      · simp only [slice_rooms, List.flatten_cons, ihj]
        rw [← List.take_add]

lemma caps_list_as_map (N R : ℕ) :
    ((List.range R).map (fun i => i + 1)).map (get_room_size N R) = caps_list N R := by
  rw [List.map_map]
  rfl

lemma random_round_spec {N R : ℕ} (hR : 1 ≤ R) {shuffled : List ℕ}
    (hs : shuffled.Perm (participants_list N)) :
    (random_round N R shuffled).map List.length = caps_list N R
    ∧ (random_round N R shuffled).flatten.Perm (participants_list N) := by
  have hlen : shuffled.length = N := by
    rw [hs.length_eq, participants_list_length]
  have hsum : (((List.range R).map (fun i => i + 1)).map (get_room_size N R)).sum = N := by
    rw [caps_list_as_map, caps_list_sum hR]
  obtain ⟨h1, h2⟩ := slice_rooms_spec N R ((List.range R).map (fun i => i + 1)) shuffled
    (by rw [hsum, hlen])
  unfold random_round
  constructor
  · rw [h1, caps_list_as_map]
  · rw [h2, hsum]
    have : List.take N shuffled = shuffled := by
      rw [← hlen, List.take_length]
    rw [this]
    exact hs

/-- `assignment[(i % total_rooms) + 1].append(participant)`: append `p` to the
room at position `j` (0-based). -/
def append_at : List (List ℕ) → ℕ → ℕ → List (List ℕ)
  | [], _, _ => []
  | r :: rs, 0, p => (r ++ [p]) :: rs
  | r :: rs, j + 1, p => r :: append_at rs j p

/-- The `for i, participant in enumerate(remainder)` loop of
`_generate_random_assignment`: distribute the leftover participants round-robin. -/
def distribute_remainder (R : ℕ) : List (List ℕ) → List (ℕ × ℕ) → List (List ℕ)
  | rooms, [] => rooms
  | rooms, (i, p) :: rest => distribute_remainder R (append_at rooms (i % R) p) rest

/-- `OptimizationAssigner._generate_random_assignment`: slice the shuffled list
into R contiguous chunks of `room_size = N div R`, then distribute the leftover
`shuffled[R*room_size:]` round-robin starting at room 1. -/
def generate_random_assignment (N R : ℕ) (shuffled : List ℕ) : RoundAssignment :=
  distribute_remainder R
    ((List.range R).map (fun j => (shuffled.drop (j * (N / R))).take (N / R)))
    (shuffled.drop (R * (N / R))).enum

lemma append_at_length (rooms : List (List ℕ)) (j p : ℕ) :
    (append_at rooms j p).length = rooms.length := by
  induction rooms generalizing j with
  | nil => rfl
  | cons r rs ih =>
      cases j with
      | zero => rfl
      | succ j => simp [append_at, ih]

lemma append_at_eq (rooms : List (List ℕ)) (j p : ℕ) (h : j < rooms.length) :
    append_at rooms j p
      = rooms.take j ++ (rooms.get ⟨j, h⟩ ++ [p]) :: rooms.drop (j + 1) := by
  induction rooms generalizing j with
  | nil => simp at h
  | cons r rs ih =>
      cases j with
      | zero => simp [append_at]
      | succ j =>
          have hj : j < rs.length := by simpa using h
          simp [append_at, ih j hj]

lemma distribute_enumFrom {R : ℕ} (l : List ℕ) :
    ∀ (k : ℕ) (rooms : List (List ℕ)),
      rooms.length = R → k + l.length ≤ R →
      distribute_remainder R rooms (List.enumFrom k l)
        = rooms.take k
          ++ List.zipWith (fun room p => room ++ [p]) (rooms.drop k) l
          ++ rooms.drop (k + l.length) := by
  induction l with
  | nil =>
      intro k rooms _ _
      simp [distribute_remainder]
  | cons p ps ih =>
      intro k rooms h1 h2
      have hkR : k < R := by
        have := ps.length
        simp only [List.length_cons] at h2
        omega
      have hklen : k < rooms.length := by omega
      show distribute_remainder R (append_at rooms (k % R) p) (List.enumFrom (k + 1) ps) = _
      rw [Nat.mod_eq_of_lt hkR]
      rw [append_at_eq rooms k p hklen]
      have hlen' : (rooms.take k ++ (rooms.get ⟨k, hklen⟩ ++ [p]) :: rooms.drop (k + 1)).length = R := by
        simp only [List.length_append, List.length_cons, List.length_take, List.length_drop]
        omega
      rw [ih (k + 1) _ hlen' (by simp only [List.length_cons] at h2; omega)]
      have htk : (rooms.take k).length = k := by
        rw [List.length_take]
        omega
      have htake : (rooms.take k ++ (rooms.get ⟨k, hklen⟩ ++ [p]) :: rooms.drop (k + 1)).take (k + 1)
          = rooms.take k ++ [rooms.get ⟨k, hklen⟩ ++ [p]] := by
        rw [List.take_append_eq_append_take, htk]
        congr 1
        · rw [List.take_of_length_le (by omega)]
        · simp
      have hdrop : ∀ d : ℕ, (rooms.take k ++ (rooms.get ⟨k, hklen⟩ ++ [p]) :: rooms.drop (k + 1)).drop (k + 1 + d)
          = rooms.drop (k + 1 + d) := by
        intro d
        rw [List.drop_append_eq_append_drop, htk]
        rw [List.drop_of_length_le (by omega)]
        have h3 : k + 1 + d - k = 1 + d := by omega
        rw [h3, List.nil_append]
        cases d with
        | zero => simp
        | succ d =>
            rw [show (1 : ℕ) + (d + 1) = d + 1 + 1 from by omega, List.drop_succ_cons,
              List.drop_drop]
            try (congr 1; omega)
      have hd0 : (rooms.take k ++ (rooms.get ⟨k, hklen⟩ ++ [p]) :: rooms.drop (k + 1)).drop (k + 1)
          = rooms.drop (k + 1) := by
        have := hdrop 0
        simpa using this
      have hd1 : (rooms.take k ++ (rooms.get ⟨k, hklen⟩ ++ [p]) :: rooms.drop (k + 1)).drop (k + 1 + ps.length)
          = rooms.drop (k + 1 + ps.length) := hdrop ps.length
      rw [htake, hd0, hd1]
      have hzip : List.zipWith (fun room q => room ++ [q]) (rooms.drop k) (p :: ps)
          = (rooms.get ⟨k, hklen⟩ ++ [p])
            :: List.zipWith (fun room q => room ++ [q]) (rooms.drop (k + 1)) ps := by
        rw [← List.get_cons_drop rooms ⟨k, hklen⟩]
        rfl
      rw [hzip]
      have harith : k + (p :: ps).length = k + 1 + ps.length := by
        simp only [List.length_cons]
        omega
      rw [harith]
      simp [List.append_assoc]

lemma chunks_join (l : List ℕ) (b : ℕ) :
    ∀ K : ℕ, ((List.range K).map (fun j => (l.drop (j * b)).take b)).flatten = l.take (K * b) := by
  intro K
  induction K with
  | zero => simp
  | succ K ih =>
      rw [List.range_succ, List.map_append, List.flatten_append, ih]
      simp only [List.map_cons, List.map_nil, List.flatten_cons, List.flatten_nil, List.append_nil]
      rw [← List.take_add]
      congr 1
      ring

lemma chunks_map_length {l : List ℕ} {b R : ℕ} (h : R * b ≤ l.length) :
    (((List.range R).map (fun j => (l.drop (j * b)).take b)).map List.length)
      = List.replicate R b := by
  rw [List.map_map]
  apply List.eq_replicate_iff.2
  constructor
  · simp
  · intro c hc
    rcases List.mem_map.1 hc with ⟨j, hj, rfl⟩
    have hjR : j < R := List.mem_range.1 hj
    simp only [Function.comp_apply, List.length_take, List.length_drop]
    have hjb : j * b + b ≤ R * b := by
      have : j + 1 ≤ R := hjR
      calc j * b + b = (j + 1) * b := by ring
        _ ≤ R * b := Nat.mul_le_mul_right b this
    omega

lemma zipWith_append_singleton_map_length :
    ∀ (l₁ : List (List ℕ)) (l₂ : List ℕ),
      (List.zipWith (fun room p => room ++ [p]) l₁ l₂).map List.length
        = List.zipWith (fun (room : List ℕ) (_ : ℕ) => room.length + 1) l₁ l₂ := by
  intro l₁
  induction l₁ with
  | nil => intro l₂; simp
  | cons r rs ih =>
      intro l₂
      cases l₂ with
      | nil => simp
      | cons p ps => simp [ih]

lemma zipWith_length_replicate :
    ∀ (l₁ : List (List ℕ)) (l₂ : List ℕ) (b : ℕ),
      l₁.map List.length = List.replicate l₁.length b →
      l₂.length ≤ l₁.length →
      List.zipWith (fun (room : List ℕ) (_ : ℕ) => room.length + 1) l₁ l₂
        = List.replicate l₂.length (b + 1) := by
  intro l₁
  induction l₁ with
  | nil =>
      intro l₂ b _ h2
      have : l₂ = [] := List.eq_nil_of_length_eq_zero (by simpa using h2)
      simp [this]
  | cons r rs ih =>
      intro l₂ b h1 h2
      cases l₂ with
      | nil => simp
      | cons p ps =>
          simp only [List.map_cons, List.length_cons, List.replicate_succ, List.cons_eq_cons] at h1
          simp only [List.zipWith_cons_cons, List.length_cons, List.replicate_succ]
          exact List.cons_eq_cons.2 ⟨by rw [h1.1], ih ps b h1.2 (by simpa using h2)⟩

lemma zipWith_append_singleton_flatten_perm :
    ∀ (l₁ : List (List ℕ)) (l₂ : List ℕ),
      l₂.length ≤ l₁.length →
      (List.zipWith (fun room p => room ++ [p]) l₁ l₂).flatten.Perm
        ((l₁.take l₂.length).flatten ++ l₂) := by
  intro l₁
  induction l₁ with
  | nil =>
      intro l₂ h2
      have : l₂ = [] := List.eq_nil_of_length_eq_zero (by simpa using h2)
      simp [this]
  | cons r rs ih =>
      intro l₂ h2
      cases l₂ with
      | nil => simp
      | cons p ps =>
          simp only [List.zipWith_cons_cons, List.flatten_cons, List.length_cons,
            List.take_succ_cons]
          have ihp := ih ps (by simpa using h2)
          have step1 : (r ++ [p]) ++ (List.zipWith (fun room q => room ++ [q]) rs ps).flatten
              = r ++ (p :: (List.zipWith (fun room q => room ++ [q]) rs ps).flatten) := by
            simp
          have step4 : (r ++ (rs.take ps.length).flatten) ++ (p :: ps)
              = r ++ ((rs.take ps.length).flatten ++ p :: ps) := by
            simp
          rw [step1, step4]
          apply List.Perm.append_left
          exact (ihp.cons p).trans List.perm_middle.symm

lemma generate_random_assignment_spec {N R : ℕ} (hR : 1 ≤ R) {shuffled : List ℕ}
    (hs : shuffled.Perm (participants_list N)) :
    (generate_random_assignment N R shuffled).map List.length = caps_list N R
    ∧ (generate_random_assignment N R shuffled).flatten.Perm (participants_list N) := by
  have hmod : N % R < R := Nat.mod_lt _ hR
  have hlen : shuffled.length = N := by
    rw [hs.length_eq, participants_list_length]
  have hdm : R * (N / R) + N % R = N := Nat.div_add_mod N R
  have hble : R * (N / R) ≤ shuffled.length := by omega
  set b := N / R with hb
  set chunks := (List.range R).map (fun j => (shuffled.drop (j * b)).take b) with hchunks
  have hchlen : chunks.length = R := by simp [hchunks]
  have hchmap : chunks.map List.length = List.replicate R b := by
    have := chunks_map_length (l := shuffled) (b := b) (R := R) hble
    rw [hchunks]
    simpa [hchlen] using this
  set rem := shuffled.drop (R * b) with hrem
  have hremlen : rem.length = N % R := by
    rw [hrem, List.length_drop]
    omega
  have henum : rem.enum = List.enumFrom 0 rem := rfl
  have hdist : generate_random_assignment N R shuffled
      = List.zipWith (fun room p => room ++ [p]) chunks rem ++ chunks.drop (N % R) := by
    show distribute_remainder R chunks rem.enum = _
    rw [henum, distribute_enumFrom rem 0 chunks hchlen (by omega)]
    simp [hremlen]
  rw [hdist]
  constructor
  · rw [List.map_append, zipWith_append_singleton_map_length,
      zipWith_length_replicate chunks rem b (by rw [hchlen]; exact hchmap)
        (by rw [hchlen, hremlen]; omega),
      hremlen, caps_list_eq hR]
    congr 1
    rw [List.map_drop, hchmap, List.drop_replicate]
  · rw [List.flatten_append]
    have hzp := zipWith_append_singleton_flatten_perm chunks rem
      (by rw [hchlen, hremlen]; omega)
    have hperm1 : (List.zipWith (fun room p => room ++ [p]) chunks rem).flatten
        ++ (chunks.drop (N % R)).flatten
        |>.Perm (((chunks.take rem.length).flatten ++ rem) ++ (chunks.drop (N % R)).flatten) :=
      List.Perm.append_right _ hzp
    refine hperm1.trans ?_
    have hassemble : (((chunks.take rem.length).flatten ++ rem) ++ (chunks.drop (N % R)).flatten).Perm
        (((chunks.take rem.length).flatten ++ (chunks.drop (N % R)).flatten) ++ rem) := by
      rw [List.append_assoc, List.append_assoc]
      exact List.Perm.append_left _ List.perm_append_comm
    refine hassemble.trans ?_
    have hjoin : (chunks.take rem.length).flatten ++ (chunks.drop (N % R)).flatten
        = chunks.flatten := by
      rw [hremlen, ← List.flatten_append, List.take_append_drop]
    rw [hjoin]
    have hcj : chunks.flatten = shuffled.take (R * b) := chunks_join shuffled b R
    rw [hcj, hrem, List.take_append_drop]
    exact hs

/-- The pair-history dictionary `defaultdict(int)` keyed by `frozenset` pairs:
a total function from normalized pairs to counts (absent keys map to 0). -/
abbrev PairHistory := ℕ × ℕ → ℕ

/-- `self.pair_history[frozenset((candidate, member))] += 1`. -/
def bump (h : PairHistory) (k : ℕ × ℕ) : PairHistory :=
  fun q => if q = k then h q + 1 else h q

/-- `GreedyAssigner._calculate_pair_score`: sum of pair-history counts between
the candidate and every member already in the room. -/
def calculate_pair_score (h : PairHistory) (candidate : ℕ) (room_members : List ℕ) : ℕ :=
  (room_members.map (fun member => h (fkey candidate member))).sum

/-- `GreedyAssigner._update_pair_history`: increment the count of every pair
(candidate, member) over the passed member list, skipping member == candidate. -/
def update_pair_history (h : PairHistory) (candidate : ℕ) (room_members : List ℕ) : PairHistory :=
  room_members.foldl
    (fun h member => if member ≠ candidate then bump h (fkey candidate member) else h) h

/-- Python's `min(available_candidates, key=score)`: the first element attaining
the minimal key, realized as a left fold. -/
def argmin_first (f : ℕ → ℕ) (x : ℕ) (xs : List ℕ) : ℕ :=
  xs.foldl (fun best y => if f y < f best then y else best) x

/-- `random.choice(list(set(self.participants) - set(room_members)))`: the
fallback candidate pool, participants minus the current room's members. -/
def fallback_set (N : ℕ) (room_members : List ℕ) : Finset ℕ :=
  participants_set N \ room_members.toFinset

/-- `GreedyAssigner._select_next_candidate`, with `random.choice` modelled by a
chooser oracle; `none` models the `IndexError` `random.choice` raises on an
empty sequence. -/
def select_next_candidate (chooser : Finset ℕ → ℕ) (N : ℕ) (h : PairHistory)
    (available_candidates room_members : List ℕ) : Option ℕ :=
  match available_candidates with
  | [] =>
      if fallback_set N room_members = ∅ then none
      else some (chooser (fallback_set N room_members))
  | x :: xs => some (argmin_first (fun c => calculate_pair_score h c room_members) x xs)

/-- The mutable state of one round of `GreedyAssigner.generate_assignments`
while one room is being filled. -/
structure GState where
  ph : PairHistory
  pool : List ℕ
  assigned : Finset ℕ
  room : List ℕ

/-- One iteration of the `while len(round_assignment[room]) < current_size`
body: select a candidate, remove it from the pool if present, and place it
(appending + history update) unless it is already assigned. -/
def fill_step (chooser : Finset ℕ → ℕ) (N : ℕ) (s : GState) : Option GState :=
  match select_next_candidate chooser N s.ph s.pool s.room with
  | none => none
  | some candidate =>
      let pool' := if candidate ∈ s.pool then s.pool.erase candidate else s.pool
      if candidate ∈ s.assigned then
        some ⟨s.ph, pool', s.assigned, s.room⟩
      else
        some ⟨update_pair_history s.ph candidate (s.room ++ [candidate]), pool',
          insert candidate s.assigned, s.room ++ [candidate]⟩

/-- The while loop, with fuel (the Python loop is not structurally recursive;
`none` on fuel exhaustion — the proofs show fuel `N` always suffices on
reachable states). -/
def fill_room (chooser : Finset ℕ → ℕ) (N cap : ℕ) : ℕ → GState → Option GState
  | 0, s => if s.room.length < cap then none else some s
  | fuel + 1, s =>
      if s.room.length < cap then
        match fill_step chooser N s with
        | none => none
        | some s' => fill_room chooser N cap fuel s'
      else some s

/-- The `for room in range(1, total_rooms + 1)` loop of one greedy round. -/
def fill_rooms (chooser : Finset ℕ → ℕ) (N R : ℕ) :
    List ℕ → PairHistory → List ℕ → Finset ℕ → RoundAssignment → Option (PairHistory × RoundAssignment)
  | [], ph, _, _, acc => some (ph, acc)
  | r :: rs, ph, pool, assigned, acc =>
      match fill_room chooser N (get_room_size N R r) N ⟨ph, pool, assigned, []⟩ with
      | none => none
      | some s' => fill_rooms chooser N R rs s'.ph s'.pool s'.assigned (acc ++ [s'.room])

/-- One round of `GreedyAssigner.generate_assignments`: fresh empty rooms and
assigned-set, pool = this round's shuffled copy of the participants. -/
def greedy_round (chooser : Finset ℕ → ℕ) (N R : ℕ) (shuffled : List ℕ)
    (ph : PairHistory) : Option (PairHistory × RoundAssignment) :=
  fill_rooms chooser N R ((List.range R).map (fun i => i + 1)) ph shuffled ∅ []

/-- `GreedyAssigner.generate_assignments` truncated to its first `T` rounds,
threading the cumulative pair history (initially the empty defaultdict). -/
def greedy_iter (chooser : Finset ℕ → ℕ) (N R : ℕ) (shuffles : ℕ → List ℕ) :
    ℕ → Option (PairHistory × Schedule)
  | 0 => some (fun _ => 0, [])
  | t + 1 =>
      match greedy_iter chooser N R shuffles t with
      | none => none
      | some (ph, rounds) =>
          match greedy_round chooser N R (shuffles t) ph with
          | none => none
          | some (ph', rooms) => some (ph', rounds ++ [rooms])

/-- `GreedyAssigner.generate_assignments`: the full `total_rounds` rounds;
only the schedule is returned to the caller. -/
def greedy_generate_assignments (chooser : Finset ℕ → ℕ) (N R T : ℕ)
    (shuffles : ℕ → List ℕ) : Option Schedule :=
  (greedy_iter chooser N R shuffles T).map (fun st => st.2)

/-- The pair history after `t` rounds of one `GreedyAssigner` run (the
defaultdict default otherwise). -/
def history_after (chooser : Finset ℕ → ℕ) (N R : ℕ) (shuffles : ℕ → List ℕ)
    (t : ℕ) : PairHistory :=
  match greedy_iter chooser N R shuffles t with
  | some (ph, _) => ph
  | none => fun _ => 0

lemma argmin_first_mem (f : ℕ → ℕ) (x : ℕ) (xs : List ℕ) :
    argmin_first f x xs ∈ x :: xs := by
  unfold argmin_first
  induction xs generalizing x with
  | nil => simp
  | cons y ys ih =>
      show List.foldl _ (if f y < f x then y else x) ys ∈ x :: y :: ys
      by_cases hf : f y < f x
      · rw [if_pos hf]
        rcases List.mem_cons.1 (ih y) with h | h
        · rw [h]
          simp
        · simp [List.mem_cons, h]
      · rw [if_neg hf]
        rcases List.mem_cons.1 (ih x) with h | h
        · rw [h]
          simp
        · simp [List.mem_cons, h]

lemma bump_apply (h : PairHistory) (k q : ℕ × ℕ) :
    bump h k q = h q + if q = k then 1 else 0 := by
  unfold bump
  by_cases hq : q = k <;> simp [hq]

lemma update_pair_history_not_mem :
    ∀ (l : List ℕ) (h : PairHistory) (c : ℕ) (k : ℕ × ℕ), c ∉ l →
      update_pair_history h c l k
        = h k + Multiset.count k ((l.map (fun m => fkey c m) : List (ℕ × ℕ)) : Multiset (ℕ × ℕ)) := by
  intro l
  induction l with
  | nil => intro h c k _; simp [update_pair_history]
  | cons m l ih =>
      intro h c k hc
      have hm : m ≠ c := by
        intro hmc
        exact hc (hmc ▸ List.mem_cons_self m l)
      show update_pair_history (if m ≠ c then bump h (fkey c m) else h) c l k = _
      rw [if_pos hm, ih _ c k (fun hcl => hc (List.mem_cons_of_mem m hcl)), bump_apply]
      simp only [List.map_cons]
      rw [← Multiset.cons_coe, Multiset.count_cons]
      omega

lemma update_pair_history_room (room : List ℕ) (h : PairHistory) (c : ℕ) (k : ℕ × ℕ)
    (hc : c ∉ room) :
    update_pair_history h c (room ++ [c]) k
      = h k + Multiset.count k ((room.map (fun m => fkey c m) : List (ℕ × ℕ)) : Multiset (ℕ × ℕ)) := by
  have hsplit : update_pair_history h c (room ++ [c]) = update_pair_history h c room := by
    unfold update_pair_history
    rw [List.foldl_append]
    simp
  rw [hsplit, update_pair_history_not_mem room h c k hc]

lemma update_pair_history_le :
    ∀ (l : List ℕ) (h : PairHistory) (c : ℕ) (k : ℕ × ℕ),
      h k ≤ update_pair_history h c l k := by
  intro l
  induction l with
  | nil => intro h c k; exact le_refl _
  | cons m l ih =>
      intro h c k
      show h k ≤ update_pair_history (if m ≠ c then bump h (fkey c m) else h) c l k
      refine le_trans ?_ (ih _ c k)
      by_cases hm : m ≠ c
      · rw [if_pos hm, bump_apply]
        omega
      · rw [if_neg hm]

/-- The reachable-state invariant of the greedy while loop: as long as the pool
is exactly the set of participants not yet assigned, every iteration takes the
pool branch and appends one fresh member, so the loop fills the room to
capacity in at most `cap` iterations, never触 touching the fallback. -/
lemma fill_room_spec (chooser : Finset ℕ → ℕ) (N cap : ℕ) :
    ∀ (fuel : ℕ) (s : GState),
      s.pool.Nodup →
      s.pool.toFinset = participants_set N \ s.assigned →
      s.room.Nodup →
      (∀ m ∈ s.room, m ∈ s.assigned) →
      cap ≤ s.room.length + s.pool.length →
      cap ≤ s.room.length + fuel →
      ∃ (s' : GState) (d : List ℕ),
        fill_room chooser N cap fuel s = some s'
        ∧ s'.room = s.room ++ d
        ∧ d.Nodup
        ∧ (∀ m ∈ d, m ∈ s.pool)
        ∧ s'.pool.Nodup
        ∧ s'.pool.toFinset = s.pool.toFinset \ d.toFinset
        ∧ s'.pool.length + d.length = s.pool.length
        ∧ s'.assigned = s.assigned ∪ d.toFinset
        ∧ s'.room.length = max cap s.room.length
        ∧ (∀ k, s'.ph k + (pairsM s.room).count k = s.ph k + (pairsM s'.room).count k) := by
  intro fuel
  induction fuel with
  | zero =>
      intro s h1 h2 h3 h4 h5 h6
      have hge : ¬ (s.room.length < cap) := by omega
      refine ⟨s, [], ?_, by simp, by simp, by simp, h1, by simp, by simp, by simp,
        by omega, fun k => rfl⟩
      show (if s.room.length < cap then none else some s) = some s
      rw [if_neg hge]
  | succ fuel ih =>
      intro s h1 h2 h3 h4 h5 h6
      by_cases hlt : s.room.length < cap
      · -- the loop body runs; the pool is necessarily non-empty
        have hpoolpos : 0 < s.pool.length := by omega
        obtain ⟨x, xs, hpool⟩ : ∃ x xs, s.pool = x :: xs := by
          cases hp : s.pool with
          | nil =>
              rw [hp] at hpoolpos
              simp at hpoolpos
          | cons a b => exact ⟨a, b, rfl⟩
        · set c := argmin_first (fun cand => calculate_pair_score s.ph cand s.room) x xs with hc
          have hcmem : c ∈ s.pool := by
            rw [hpool]
            exact argmin_first_mem _ x xs
          have hcfin : c ∈ s.pool.toFinset := List.mem_toFinset.2 hcmem
          have hcassigned : c ∉ s.assigned := by
            rw [h2] at hcfin
            exact (Finset.mem_sdiff.1 hcfin).2
          have hcroom : c ∉ s.room := fun hcr => hcassigned (h4 c hcr)
          have hsel : select_next_candidate chooser N s.ph s.pool s.room = some c := by
            rw [hpool]
            rfl
          have hstep : fill_step chooser N s
              = some ⟨update_pair_history s.ph c (s.room ++ [c]), s.pool.erase c,
                  insert c s.assigned, s.room ++ [c]⟩ := by
            unfold fill_step
            rw [hsel]
            simp only [hcmem, if_pos, if_true]
            rw [if_neg hcassigned]
          set s1 : GState := ⟨update_pair_history s.ph c (s.room ++ [c]), s.pool.erase c,
            insert c s.assigned, s.room ++ [c]⟩ with hs1
          have hlen_erase : (s.pool.erase c).length + 1 = s.pool.length := by
            rw [List.length_erase_of_mem hcmem]
            omega
          have h1' : s1.pool.Nodup := h1.erase c
          have h2' : s1.pool.toFinset = participants_set N \ s1.assigned := by
            ext a
            show a ∈ (s.pool.erase c).toFinset ↔ a ∈ participants_set N \ insert c s.assigned
            rw [List.mem_toFinset, h1.mem_erase_iff, Finset.mem_sdiff, Finset.mem_insert]
            constructor
            · rintro ⟨hac, hap⟩
              have := List.mem_toFinset.2 hap
              rw [h2, Finset.mem_sdiff] at this
              exact ⟨this.1, fun hin => hin.elim (fun hh => hac hh) this.2⟩
            · rintro ⟨haP, hnin⟩
              have hns : a ∉ s.assigned := fun hh => hnin (Or.inr hh)
              have : a ∈ s.pool.toFinset := by
                rw [h2, Finset.mem_sdiff]
                exact ⟨haP, hns⟩
              exact ⟨fun hh => hnin (Or.inl hh), List.mem_toFinset.1 this⟩
          have h3' : s1.room.Nodup := by
            show (s.room ++ [c]).Nodup
            rw [List.nodup_append]
            exact ⟨h3, List.nodup_singleton c, by simpa [List.disjoint_singleton] using hcroom⟩
          have h4' : ∀ m ∈ s1.room, m ∈ s1.assigned := by
            intro m hm
            rcases List.mem_append.1 hm with hm | hm
            · exact Finset.mem_insert_of_mem (h4 m hm)
            · rw [List.mem_singleton.1 hm]
              exact Finset.mem_insert_self c s.assigned
          have h5' : cap ≤ s1.room.length + s1.pool.length := by
            show cap ≤ (s.room ++ [c]).length + (s.pool.erase c).length
            rw [List.length_append]
            simp only [List.length_singleton]
            omega
          have h6' : cap ≤ s1.room.length + fuel := by
            show cap ≤ (s.room ++ [c]).length + fuel
            rw [List.length_append]
            simp only [List.length_singleton]
            omega
          obtain ⟨s', d', hrun, hroom, hdnd, hdmem, hpn, hpf, hpl, has, hrl, hph⟩ :=
            ih s1 h1' h2' h3' h4' h5' h6'
          have hcne : c ∉ d' := by
            intro hcd
            exact h1.not_mem_erase (hdmem c hcd)
          refine ⟨s', c :: d', ?_, ?_, ?_, ?_, hpn, ?_, ?_, ?_, ?_, ?_⟩
          · show fill_room chooser N cap (fuel + 1) s = some s'
            unfold fill_room
            rw [if_pos hlt, hstep]
            exact hrun
          · rw [hroom]
            show (s.room ++ [c]) ++ d' = s.room ++ (c :: d')
            rw [List.append_assoc]
            rfl
          · exact List.nodup_cons.2 ⟨hcne, hdnd⟩
          · intro m hm
            rcases List.mem_cons.1 hm with hm | hm
            · rw [hm]
              exact hcmem
            · exact List.mem_of_mem_erase (hdmem m hm)
          · rw [hpf]
            ext a
            show a ∈ (s.pool.erase c).toFinset \ d'.toFinset ↔ a ∈ s.pool.toFinset \ (c :: d').toFinset
            simp only [Finset.mem_sdiff, List.mem_toFinset, h1.mem_erase_iff, List.mem_cons]
            tauto
          · show s'.pool.length + (c :: d').length = s.pool.length
            rw [List.length_cons]
            have : s'.pool.length + d'.length = (s.pool.erase c).length := hpl
            omega
          · rw [has]
            ext a
            show a ∈ insert c s.assigned ∪ d'.toFinset ↔ a ∈ s.assigned ∪ (c :: d').toFinset
            rw [Finset.mem_union, Finset.mem_union, Finset.mem_insert, List.mem_toFinset,
              List.mem_toFinset, List.mem_cons]
            tauto
          · rw [hrl]
            show max cap (s.room ++ [c]).length = max cap s.room.length
            rw [List.length_append]
            simp only [List.length_singleton]
            omega
          · intro k
            have hph1 : s1.ph k = s.ph k
                + Multiset.count k ((s.room.map (fun m => fkey c m) : List (ℕ × ℕ)) : Multiset (ℕ × ℕ)) :=
              update_pair_history_room s.room s.ph c k hcroom
            have hpr1 : (pairsM s1.room).count k = (pairsM s.room).count k
                + Multiset.count k ((s.room.map (fun m => fkey c m) : List (ℕ × ℕ)) : Multiset (ℕ × ℕ)) :=
              pairsM_append_singleton_count s.room c k
            have := hph k
            rw [hph1, hpr1] at this
            omega
      · have hge : cap ≤ s.room.length := by omega
        refine ⟨s, [], ?_, by simp, by simp, by simp, h1, by simp, by simp, by simp,
          by omega, fun k => rfl⟩
        show fill_room chooser N cap (fuel + 1) s = some s
        unfold fill_room
        rw [if_neg hlt]

lemma fill_rooms_spec (chooser : Finset ℕ → ℕ) (N R : ℕ) :
    ∀ (rs : List ℕ) (ph : PairHistory) (pool : List ℕ) (assigned : Finset ℕ)
      (acc : RoundAssignment),
      pool.Nodup →
      pool.toFinset = participants_set N \ assigned →
      (rs.map (get_room_size N R)).sum ≤ pool.length →
      ∃ (ph' : PairHistory) (rooms : RoundAssignment),
        fill_rooms chooser N R rs ph pool assigned acc = some (ph', acc ++ rooms)
        ∧ rooms.map List.length = rs.map (get_room_size N R)
        ∧ rooms.flatten.Nodup
        ∧ (∀ m ∈ rooms.flatten, m ∈ pool)
        ∧ (∀ k, ph' k = ph k + (roundPairsM rooms).count k) := by
  intro rs
  induction rs with
  | nil =>
      intro ph pool assigned acc _ _ _
      refine ⟨ph, [], ?_, by simp, by simp, by simp, ?_⟩
      · show some (ph, acc) = some (ph, acc ++ [])
        rw [List.append_nil]
      · intro k
        simp [roundPairsM]
  | cons r rs ih =>
      intro ph pool assigned acc hnd htf hsum
      simp only [List.map_cons, List.sum_cons] at hsum
      set cap := get_room_size N R r with hcap
      have hpoolN : pool.length ≤ N := by
        have h1 : pool.toFinset.card = pool.length := List.toFinset_card_of_nodup hnd
        have h2 : pool.toFinset.card ≤ (participants_set N).card := by
          rw [htf]
          exact Finset.card_le_card (Finset.sdiff_subset)
        have h3 : (participants_set N).card = N := by
          rw [participants_set, Nat.card_Icc]
          omega
        omega
      obtain ⟨s', d, hrun, hroom, hdnd, hdmem, hpn, hpf, hpl, has, hrl, hph⟩ :=
        fill_room_spec chooser N cap N ⟨ph, pool, assigned, []⟩
          hnd htf (by simp) (by simp)
          (by
            show cap ≤ ([] : List ℕ).length + pool.length
            simp only [List.length_nil]
            omega)
          (by
            show cap ≤ ([] : List ℕ).length + N
            simp only [List.length_nil]
            omega)
      have hpl2 : s'.pool.length + d.length = pool.length := by simpa using hpl
      have hdroom : s'.room = d := by
        rw [hroom]
        rfl
      have hrl2 : s'.room.length = cap := by
        have := hrl
        simp only [List.length_nil, Nat.max_zero] at this
        simpa using this
      have hdlen : d.length = cap := by
        rw [← hdroom]
        exact hrl2
      have hply : s'.pool.length = pool.length - cap := by omega
      have htf' : s'.pool.toFinset = participants_set N \ s'.assigned := by
        rw [hpf, has, htf]
        ext a
        simp only [Finset.mem_sdiff, Finset.mem_union, List.mem_toFinset]
        tauto
      have hsum' : (rs.map (get_room_size N R)).sum ≤ s'.pool.length := by omega
      obtain ⟨ph', rooms', hrun', hlen', hndj', hmem', hph'⟩ :=
        ih s'.ph s'.pool s'.assigned (acc ++ [s'.room]) hpn htf' hsum'
      refine ⟨ph', s'.room :: rooms', ?_, ?_, ?_, ?_, ?_⟩
      · show fill_rooms chooser N R (r :: rs) ph pool assigned acc = _
        have hstepeq : fill_rooms chooser N R (r :: rs) ph pool assigned acc
            = match fill_room chooser N cap N ⟨ph, pool, assigned, []⟩ with
              | none => none
              | some s1 => fill_rooms chooser N R rs s1.ph s1.pool s1.assigned (acc ++ [s1.room]) := rfl
        rw [hstepeq, hrun]
        show fill_rooms chooser N R rs s'.ph s'.pool s'.assigned (acc ++ [s'.room]) = _
        rw [hrun']
        congr 1
        rw [List.append_assoc]
        rfl
      · simp only [List.map_cons, hdroom, hdlen, hlen']
      · show (s'.room ++ rooms'.flatten).Nodup
        rw [List.nodup_append]
        refine ⟨hdroom ▸ hdnd, hndj', ?_⟩
        intro a ha hb
        have hap : a ∈ s'.pool := hmem' a hb
        have : a ∈ s'.pool.toFinset := List.mem_toFinset.2 hap
        rw [hpf, Finset.mem_sdiff] at this
        exact this.2 (List.mem_toFinset.2 (hdroom ▸ ha))
      · intro m hm
        rcases List.mem_append.1 hm with hm | hm
        · exact hdmem m (hdroom ▸ hm)
        · have : m ∈ s'.pool.toFinset := List.mem_toFinset.2 (hmem' m hm)
          rw [hpf, Finset.mem_sdiff] at this
          exact List.mem_toFinset.1 this.1
      · intro k
        have h0 : s'.ph k = ph k + (pairsM s'.room).count k := by
          have := hph k
          simp only [pairsM, Multiset.count_zero] at this
          omega
        rw [hph' k, h0]
        show _ = ph k + Multiset.count k (roundPairsM (s'.room :: rooms'))
        have : roundPairsM (s'.room :: rooms') = pairsM s'.room + roundPairsM rooms' := by
          simp [roundPairsM]
        rw [this, Multiset.count_add]
        omega

lemma greedy_round_spec (chooser : Finset ℕ → ℕ) {N R : ℕ} (hR : 1 ≤ R) (hRN : R ≤ N)
    {shuffled : List ℕ} (hs : shuffled.Perm (participants_list N)) (ph : PairHistory) :
    ∃ (ph' : PairHistory) (rooms : RoundAssignment),
      greedy_round chooser N R shuffled ph = some (ph', rooms)
      ∧ rooms.map List.length = caps_list N R
      ∧ rooms.flatten.Perm (participants_list N)
      ∧ (∀ k, ph' k = ph k + (roundPairsM rooms).count k) := by
  have hnd : shuffled.Nodup := hs.nodup_iff.2 (participants_list_nodup N)
  have hlen : shuffled.length = N := by
    rw [hs.length_eq, participants_list_length]
  have htf : shuffled.toFinset = participants_set N \ ∅ := by
    rw [Finset.sdiff_empty, ← participants_list_toFinset]
    exact List.toFinset_eq_of_perm _ _ hs
  have hsum : (((List.range R).map (fun i => i + 1)).map (get_room_size N R)).sum
      ≤ shuffled.length := by
    rw [caps_list_as_map, caps_list_sum hR, hlen]
  obtain ⟨ph', rooms, hrun, hlens, hndj, hmem, hph⟩ :=
    fill_rooms_spec chooser N R ((List.range R).map (fun i => i + 1)) ph shuffled ∅ []
      hnd htf hsum
  refine ⟨ph', rooms, ?_, ?_, ?_, hph⟩
  · show fill_rooms chooser N R _ ph shuffled ∅ [] = _
    rw [hrun]
    rfl
  · rw [hlens, caps_list_as_map]
  · have hflen : rooms.flatten.length = N := by
      rw [List.length_flatten, hlens, caps_list_as_map, caps_list_sum hR]
    have hsub : rooms.flatten ⊆ shuffled := fun m hm => hmem m hm
    have hsp := List.subperm_of_subset hndj hsub
    have := hsp.perm_of_length_le (by omega)
    exact this.trans hs

lemma greedy_iter_spec (chooser : Finset ℕ → ℕ) {N R : ℕ} (hR : 1 ≤ R) (hRN : R ≤ N)
    (shuffles : ℕ → List ℕ) (hsh : ∀ t, (shuffles t).Perm (participants_list N)) :
    ∀ T : ℕ, ∃ (ph : PairHistory) (sched : Schedule),
      greedy_iter chooser N R shuffles T = some (ph, sched)
      ∧ sched.length = T
      ∧ (∀ round ∈ sched, round.map List.length = caps_list N R
          ∧ round.flatten.Perm (participants_list N))
      ∧ (∀ k, ph k = (all_pairs sched).count k) := by
  intro T
  induction T with
  | zero =>
      refine ⟨fun _ => 0, [], rfl, rfl, by simp, ?_⟩
      intro k
      simp [all_pairs]
  | succ T ih =>
      obtain ⟨ph, sched, hit, hlen, hrounds, hph⟩ := ih
      obtain ⟨ph', rooms, hround, hlens, hperm, hph'⟩ :=
        greedy_round_spec chooser hR hRN (hsh T) ph
      refine ⟨ph', sched ++ [rooms], ?_, ?_, ?_, ?_⟩
      · show greedy_iter chooser N R shuffles (T + 1) = _
        have hstep : greedy_iter chooser N R shuffles (T + 1)
            = match greedy_iter chooser N R shuffles T with
              | none => none
              | some (p, rounds) =>
                  match greedy_round chooser N R (shuffles T) p with
                  | none => none
                  | some (p', rs) => some (p', rounds ++ [rs]) := rfl
        rw [hstep, hit]
        show (match greedy_round chooser N R (shuffles T) ph with
              | none => none
              | some (p', rs) => some (p', sched ++ [rs])) = _
        rw [hround]
      · simp [hlen]
      · intro round hr
        rcases List.mem_append.1 hr with hr | hr
        · exact hrounds round hr
        · rw [List.mem_singleton.1 hr]
          exact ⟨hlens, hperm⟩
      · intro k
        rw [hph' k, hph k, all_pairs_append, all_pairs_singleton, Multiset.count_add]

/-- A single placement never decreases any pair-history count: both branches
of the loop body either leave the history unchanged or bump one key. -/
lemma fill_step_ph_mono (chooser : Finset ℕ → ℕ) (N : ℕ) (s s' : GState)
    (h : fill_step chooser N s = some s') : ∀ q, s.ph q ≤ s'.ph q := by
  intro q
  unfold fill_step at h
  cases hsel : select_next_candidate chooser N s.ph s.pool s.room with
  | none =>
      rw [hsel] at h
      simp at h
  | some c =>
      rw [hsel] at h
      replace h : (if c ∈ s.assigned then
            some (⟨s.ph, if c ∈ s.pool then s.pool.erase c else s.pool,
              s.assigned, s.room⟩ : GState)
          else
            some ⟨update_pair_history s.ph c (s.room ++ [c]),
              if c ∈ s.pool then s.pool.erase c else s.pool,
              insert c s.assigned, s.room ++ [c]⟩) = some s' := h
      by_cases hca : c ∈ s.assigned
      · rw [if_pos hca] at h
        have : s' = ⟨s.ph, if c ∈ s.pool then s.pool.erase c else s.pool, s.assigned, s.room⟩ :=
          (Option.some.inj h).symm
        rw [this]
      · rw [if_neg hca] at h
        have : s' = ⟨update_pair_history s.ph c (s.room ++ [c]),
            if c ∈ s.pool then s.pool.erase c else s.pool,
            insert c s.assigned, s.room ++ [c]⟩ :=
          (Option.some.inj h).symm
        rw [this]
        exact update_pair_history_le _ s.ph c q

lemma greedy_iter_extend (chooser : Finset ℕ → ℕ) {N R : ℕ} (hR : 1 ≤ R) (hRN : R ≤ N)
    (shuffles : ℕ → List ℕ) (hsh : ∀ t, (shuffles t).Perm (participants_list N)) :
    ∀ (i d : ℕ), ∃ (phi : PairHistory) (si : Schedule) (phj : PairHistory) (sj : Schedule)
      (ext : Schedule),
      greedy_iter chooser N R shuffles i = some (phi, si)
      ∧ greedy_iter chooser N R shuffles (i + d) = some (phj, sj)
      ∧ sj = si ++ ext := by
  intro i d
  induction d with
  | zero =>
      obtain ⟨ph, s, hit, _, _, _⟩ := greedy_iter_spec chooser hR hRN shuffles hsh i
      exact ⟨ph, s, ph, s, [], hit, hit, by simp⟩
  | succ d ih =>
      obtain ⟨phi, si, phj, sj, ext, h1, h2, h3⟩ := ih
      obtain ⟨ph', rooms, hround, _, _, _⟩ := greedy_round_spec chooser hR hRN (hsh (i + d)) phj
      refine ⟨phi, si, ph', sj ++ [rooms], ext ++ [rooms], h1, ?_, ?_⟩
      · show greedy_iter chooser N R shuffles ((i + d) + 1) = _
        have hstep : greedy_iter chooser N R shuffles ((i + d) + 1)
            = match greedy_iter chooser N R shuffles (i + d) with
              | none => none
              | some (p, rounds) =>
                  match greedy_round chooser N R (shuffles (i + d)) p with
                  | none => none
                  | some (p', rs) => some (p', rounds ++ [rs]) := rfl
        rw [hstep, h2]
        show (match greedy_round chooser N R (shuffles (i + d)) phj with
              | none => none
              | some (p', rs) => some (p', sj ++ [rs])) = _
        rw [hround]
      · rw [h3, List.append_assoc]

/-- A concrete chooser realizing `random.choice`: returns a member of any
non-empty finite set (used by the witnesses). -/
def pick_one (s : Finset ℕ) : ℕ :=
  if h : s.Nonempty then s.min' h else 0

lemma pick_one_mem {s : Finset ℕ} (h : s.Nonempty) : pick_one s ∈ s := by
  unfold pick_one
  rw [dif_pos h]
  exact s.min'_mem h

/-- C1: for every valid input (N ≥ R ≥ 1, T ≥ 1) and all randomness, every
round produced by `RandomAssigner.generate_assignments`, by
`GreedyAssigner.generate_assignments` and by
`OptimizationAssigner._generate_random_assignment` (the cited round
generation) partitions the participants 1..N exactly (its rooms' members,
concatenated, are a permutation of 1..N — no omissions, no duplicates) and
its room sizes are exactly `caps_list N R`, i.e. room r has
`_get_room_size(r)` members, each `N div R` or `N div R + 1`, with exactly
`N mod R` rooms of the larger size (`caps_list_count_big`). -/
theorem assigners_partition_spec (N R T : ℕ) (chooser : Finset ℕ → ℕ)
    (shuffles : ℕ → List ℕ) (shuffled : List ℕ)
    (hR : 1 ≤ R) (hRN : R ≤ N)
    (hsh : ∀ t, (shuffles t).Perm (participants_list N))
    (hs : shuffled.Perm (participants_list N)) :
    (∀ round ∈ random_generate_assignments N R T shuffles,
        round.map List.length = caps_list N R
        ∧ round.flatten.Perm (participants_list N))
    ∧ (∃ sched : Schedule,
        greedy_generate_assignments chooser N R T shuffles = some sched
        ∧ ∀ round ∈ sched,
            round.map List.length = caps_list N R
            ∧ round.flatten.Perm (participants_list N))
    ∧ ((generate_random_assignment N R shuffled).map List.length = caps_list N R
        ∧ (generate_random_assignment N R shuffled).flatten.Perm (participants_list N))
    ∧ (caps_list N R).count (N / R + 1) = N % R
    ∧ (∀ c ∈ caps_list N R, N / R ≤ c ∧ c ≤ N / R + 1) := by
  refine ⟨?_, ?_, generate_random_assignment_spec hR hs, caps_list_count_big hR,
    fun c hc => caps_list_mem_le hR hc⟩
  · intro round hr
    rcases List.mem_map.1 hr with ⟨t, _, rfl⟩
    exact random_round_spec hR (hsh t)
  · obtain ⟨ph, sched, hit, _, hrounds, _⟩ :=
      greedy_iter_spec chooser hR hRN shuffles hsh T
    refine ⟨sched, ?_, hrounds⟩
    unfold greedy_generate_assignments
    rw [hit]
    rfl

/-- C1 witness: the theorem applied at N = 3, R = 2, T = 2 with the identity
shuffles and the `pick_one` chooser. -/
theorem assigners_partition_spec_witness :
    (1 ≤ 2 ∧ 2 ≤ 3)
    ∧ ((∀ round ∈ random_generate_assignments 3 2 2 (fun _ => participants_list 3),
        round.map List.length = caps_list 3 2
        ∧ round.flatten.Perm (participants_list 3))
    ∧ (∃ sched : Schedule,
        greedy_generate_assignments pick_one 3 2 2 (fun _ => participants_list 3) = some sched
        ∧ ∀ round ∈ sched,
            round.map List.length = caps_list 3 2
            ∧ round.flatten.Perm (participants_list 3))
    ∧ ((generate_random_assignment 3 2 (participants_list 3)).map List.length = caps_list 3 2
        ∧ (generate_random_assignment 3 2 (participants_list 3)).flatten.Perm (participants_list 3))
    ∧ (caps_list 3 2).count (3 / 2 + 1) = 3 % 2
    ∧ (∀ c ∈ caps_list 3 2, 3 / 2 ≤ c ∧ c ≤ 3 / 2 + 1)) :=
  ⟨⟨by decide, by decide⟩,
    assigners_partition_spec 3 2 2 pick_one (fun _ => participants_list 3)
      (participants_list 3) (by decide) (by decide)
      (fun _ => List.Perm.refl _) (List.Perm.refl _)⟩

/-- C6: for every valid input (N ≥ R ≥ 1) and any number of rounds T, and for
every sequence of random draws (any shuffles, any chooser — including every
possible behavior of the fallback's `random.choice`),
`GreedyAssigner.generate_assignments` terminates returning a schedule of
exactly T rounds and raises no error: every room's while loop is proved to
reach the room's capacity within fuel N (one placement per iteration). -/
theorem greedy_generate_terminates (chooser : Finset ℕ → ℕ) (N R T : ℕ)
    (shuffles : ℕ → List ℕ) (hR : 1 ≤ R) (hRN : R ≤ N)
    (hsh : ∀ t, (shuffles t).Perm (participants_list N)) :
    ∃ sched : Schedule,
      greedy_generate_assignments chooser N R T shuffles = some sched
      ∧ sched.length = T
      ∧ ∀ round ∈ sched, round.map List.length = caps_list N R := by
  obtain ⟨ph, sched, hit, hlen, hrounds, _⟩ :=
    greedy_iter_spec chooser hR hRN shuffles hsh T
  refine ⟨sched, ?_, hlen, fun round hr => (hrounds round hr).1⟩
  unfold greedy_generate_assignments
  rw [hit]
  rfl

/-- C6 witness: the theorem applied at N = 3, R = 2, T = 3. -/
theorem greedy_generate_terminates_witness :
    (1 ≤ 2 ∧ 2 ≤ 3)
    ∧ (∃ sched : Schedule,
      greedy_generate_assignments pick_one 3 2 3 (fun _ => participants_list 3) = some sched
      ∧ sched.length = 3
      ∧ ∀ round ∈ sched, round.map List.length = caps_list 3 2) :=
  ⟨⟨by decide, by decide⟩,
    greedy_generate_terminates pick_one 3 2 3 (fun _ => participants_list 3)
      (by decide) (by decide) (fun _ => List.Perm.refl _)⟩

/-- C8: throughout one `GreedyAssigner` run, pair-history counts are
monotonically non-decreasing: a single placement (`fill_step`) never
decreases any count, and for any two round indices i ≤ j the history after
round j dominates the history after round i at every key. -/
theorem pair_history_monotone (chooser : Finset ℕ → ℕ) (N R : ℕ)
    (shuffles : ℕ → List ℕ) (i j : ℕ) (k : ℕ × ℕ)
    (hR : 1 ≤ R) (hRN : R ≤ N)
    (hsh : ∀ t, (shuffles t).Perm (participants_list N))
    (hij : i ≤ j) :
    (∀ s s' : GState, fill_step chooser N s = some s' → ∀ q, s.ph q ≤ s'.ph q)
    ∧ history_after chooser N R shuffles i k ≤ history_after chooser N R shuffles j k := by
  refine ⟨fill_step_ph_mono chooser N, ?_⟩
  obtain ⟨phi, si, phj, sj, ext, h1, h2, h3⟩ :=
    greedy_iter_extend chooser hR hRN shuffles hsh i (j - i)
  have hj : i + (j - i) = j := by omega
  rw [hj] at h2
  obtain ⟨phi0, si0, hit0, _, _, hph0⟩ := greedy_iter_spec chooser hR hRN shuffles hsh i
  obtain ⟨phj0, sj0, hitj, _, _, hphj⟩ := greedy_iter_spec chooser hR hRN shuffles hsh j
  have hei : phi0 = phi ∧ si0 = si := by
    have := hit0.symm.trans h1
    exact ⟨congrArg Prod.fst (Option.some.inj this), congrArg Prod.snd (Option.some.inj this)⟩
  have hej : phj0 = phj ∧ sj0 = sj := by
    have := hitj.symm.trans h2
    exact ⟨congrArg Prod.fst (Option.some.inj this), congrArg Prod.snd (Option.some.inj this)⟩
  have hhi : history_after chooser N R shuffles i k = phi k := by
    unfold history_after
    rw [h1]
  have hhj : history_after chooser N R shuffles j k = phj k := by
    unfold history_after
    rw [h2]
  rw [hhi, hhj]
  have hvi : phi k = (all_pairs si).count k := by
    rw [← hei.1, ← hei.2]
    exact hph0 k
  have hvj : phj k = (all_pairs sj).count k := by
    rw [← hej.1, ← hej.2]
    exact hphj k
  rw [hvi, hvj, h3, all_pairs_append, Multiset.count_add]
  omega

/-- C8 witness: the theorem applied at N = 3, R = 2, i = 1 ≤ j = 2, key (1, 2). -/
theorem pair_history_monotone_witness :
    (1 ≤ 2 ∧ 2 ≤ 3 ∧ 1 ≤ 2)
    ∧ ((∀ s s' : GState, fill_step pick_one 3 s = some s' → ∀ q, s.ph q ≤ s'.ph q)
      ∧ history_after pick_one 3 2 (fun _ => participants_list 3) 1 (1, 2)
          ≤ history_after pick_one 3 2 (fun _ => participants_list 3) 2 (1, 2)) :=
  ⟨⟨by decide, by decide, by decide⟩,
    pair_history_monotone pick_one 3 2 (fun _ => participants_list 3) 1 2 (1, 2)
      (by decide) (by decide) (fun _ => List.Perm.refl _) (by decide)⟩

/-- C10: after any full run of `GreedyAssigner.generate_assignments` on valid
input, the assigner's internal `pair_history` agrees with the evaluator
applied to the returned schedule at every key: the count stored for a pair
equals `calc_pair_frequencies(schedule)` for that pair (both 0/absent when the
pair never co-occurred). -/
theorem greedy_history_matches_evaluator (chooser : Finset ℕ → ℕ) (N R T : ℕ)
    (shuffles : ℕ → List ℕ) (hR : 1 ≤ R) (hRN : R ≤ N)
    (hsh : ∀ t, (shuffles t).Perm (participants_list N)) :
    ∃ (ph : PairHistory) (sched : Schedule),
      greedy_iter chooser N R shuffles T = some (ph, sched)
      ∧ greedy_generate_assignments chooser N R T shuffles = some sched
      ∧ ∀ k : ℕ × ℕ, ph k = calc_pair_frequencies sched k := by
  obtain ⟨ph, sched, hit, _, _, hph⟩ :=
    greedy_iter_spec chooser hR hRN shuffles hsh T
  refine ⟨ph, sched, hit, ?_, hph⟩
  unfold greedy_generate_assignments
  rw [hit]
  rfl

/-- C10 witness: the theorem applied at N = 3, R = 2, T = 2. -/
theorem greedy_history_matches_evaluator_witness :
    (1 ≤ 2 ∧ 2 ≤ 3)
    ∧ (∃ (ph : PairHistory) (sched : Schedule),
      greedy_iter pick_one 3 2 (fun _ => participants_list 3) 2 = some (ph, sched)
      ∧ greedy_generate_assignments pick_one 3 2 2 (fun _ => participants_list 3) = some sched
      ∧ ∀ k : ℕ × ℕ, ph k = calc_pair_frequencies sched k) :=
  ⟨⟨by decide, by decide⟩,
    greedy_history_matches_evaluator pick_one 3 2 2 (fun _ => participants_list 3)
      (by decide) (by decide) (fun _ => List.Perm.refl _)⟩

/-- C4 counterexample: the claim says the empty-pool fallback draws from the
participants *not yet assigned in the round*; the code draws from
`set(participants) - set(room_members)` — the current room's non-members.
Concrete state (reachable shape): N = 3, current room = [3], participants 1
and 3 already assigned (1 in an earlier room).  The fallback set is {1, 2},
and `random.choice` may return 1 (here: the `pick_one` chooser does), which
is NOT in the claim's set `participants - assigned = {2}`. -/
theorem select_next_candidate_cex :
    select_next_candidate pick_one 3 (fun _ => 0) [] [3] = some 1
    ∧ (1 : ℕ) ∈ fallback_set 3 [3]
    ∧ (1 : ℕ) ∉ participants_set 3 \ ({1, 3} : Finset ℕ) := by
  refine ⟨by decide, by decide, by decide⟩

/-- C4 (amended): when the pool passed to `_select_next_candidate` is empty,
the returned participant is `random.choice` over exactly
`set(participants) - set(room_members)` — all participants except the current
room's members, which may include participants already assigned to earlier
rooms of the round; the result is always a member of that set (and the call
raises only if that set is empty). -/
theorem select_next_candidate_empty_pool (chooser : Finset ℕ → ℕ) (N : ℕ)
    (h : PairHistory) (room_members : List ℕ)
    (hne : (fallback_set N room_members).Nonempty)
    (hch : ∀ s : Finset ℕ, s.Nonempty → chooser s ∈ s) :
    select_next_candidate chooser N h [] room_members
      = some (chooser (fallback_set N room_members))
    ∧ chooser (fallback_set N room_members) ∈ fallback_set N room_members := by
  constructor
  · show (if fallback_set N room_members = ∅ then none
      else some (chooser (fallback_set N room_members))) = _
    rw [if_neg (Finset.nonempty_iff_ne_empty.1 hne)]
  · exact hch _ hne

/-- C4 witness: the amended theorem applied at N = 3, room = [3], with the
`pick_one` chooser. -/
theorem select_next_candidate_empty_pool_witness :
    (fallback_set 3 [3]).Nonempty
    ∧ (select_next_candidate pick_one 3 (fun _ => 0) [] [3]
        = some (pick_one (fallback_set 3 [3]))
      ∧ pick_one (fallback_set 3 [3]) ∈ fallback_set 3 [3]) :=
  ⟨by decide,
    select_next_candidate_empty_pool pick_one 3 (fun _ => 0) [3]
      (by decide) (fun s hs => pick_one_mem hs)⟩

/-- `HTTPException(status_code=500, ...)` raised by
`OptimizationAssigner._optimize_round` on a non-optimal solver status. -/
inductive OptError where
  | optimizationInfeasible
deriving DecidableEq, Repr

/-- `for members in round.values(): for i1, i2 in combinations(members, 2):
self.history.add((i1, i2))` — the pairs are recorded as ORDERED tuples in the
order the members appear in each room list (membership below is what the set
gives). -/
def record_pairs (hist : List (ℕ × ℕ)) (rooms : RoundAssignment) : List (ℕ × ℕ) :=
  hist ++ (rooms.map listPairs).flatten

/-- The objective coefficient of `y[i1, i2, j]` (line 257):
`1 if (i1, i2) in self.history else 0` — a tuple membership test, not an
unordered-pair test. -/
def objective_coeff (hist : List (ℕ × ℕ)) (p : ℕ × ℕ) : ℕ :=
  if p ∈ hist then 1 else 0

/-- `_optimize_round`'s result construction (lines 282-291): from the solver's
`x` values, room j+1 gets the participants i (in ascending order) with
`x[i, j] = 1`; a non-optimal status raises. The solver itself is an oracle. -/
def optimize_round (solver : Option (ℕ → ℕ → Bool)) (N R : ℕ) :
    Except OptError RoundAssignment :=
  match solver with
  | none => Except.error OptError.optimizationInfeasible
  | some x =>
      Except.ok ((List.range R).map (fun j => (participants_list N).filter (fun i => x i j)))

/-- The `for t in range(1, total_rounds)` loop of
`OptimizationAssigner.generate_assignments`.  The solver oracle receives the
round index and the history.  A raised `HTTPException` propagates out of the
loop: the accumulated `assignments` list is abandoned (`Except.error` carries
no schedule).  The `else: break` branch (falsy assignment dict) returns the
accumulated rounds; it is reachable only when R = 0. -/
def opt_loop (solver : ℕ → List (ℕ × ℕ) → Option (ℕ → ℕ → Bool)) (N R : ℕ) :
    ℕ → ℕ → List (ℕ × ℕ) → Schedule → Except OptError Schedule
  | _, 0, _, acc => Except.ok acc
  | t, n + 1, hist, acc =>
      match optimize_round (solver t hist) N R with
      | Except.error e => Except.error e
      | Except.ok a =>
          if a.isEmpty then Except.ok acc
          else opt_loop solver N R (t + 1) n (record_pairs hist a) (acc ++ [a])

/-- `OptimizationAssigner.generate_assignments`: round 1 random, its pairs
recorded, then `total_rounds - 1` optimized rounds. -/
def opt_generate_assignments (solver : ℕ → List (ℕ × ℕ) → Option (ℕ → ℕ → Bool))
    (N R T : ℕ) (shuffled : List ℕ) : Except OptError Schedule :=
  let first := generate_random_assignment N R shuffled
  opt_loop solver N R 1 (T - 1) (record_pairs [] first) [first]

/-- C2 counterexample: with a solver that reports a non-optimal status for the
first optimized round (N = 2, R = 1, T = 2), `generate_assignments` ends in
the raised error — the caller receives `Except.error`, which carries no
schedule, NOT the list `[round 1]` of rounds already produced. -/
theorem opt_partial_results_cex :
    opt_generate_assignments (fun _ _ => none) 2 1 2 [1, 2]
      = Except.error OptError.optimizationInfeasible := rfl

/-- C2 (amended): whenever the solver reports a non-optimal status at an
optimized round, `_optimize_round` raises and the exception propagates out of
`generate_assignments`: the run fails with the OptimizationError, the rounds
already accumulated are discarded (the error carries no schedule), and no
retry and no heuristic fallback occurs — whatever rounds are in the
accumulator and whatever the solver would answer later, the result is the
error.  (The spec's claim that the partial list is returned describes the
unreachable `else: break` branch, not the exception path.) -/
theorem opt_error_propagates (solver : ℕ → List (ℕ × ℕ) → Option (ℕ → ℕ → Bool))
    (N R T t n : ℕ) (hist : List (ℕ × ℕ)) (acc : Schedule) (shuffled : List ℕ)
    (hfail : solver t hist = none)
    (hT : 2 ≤ T)
    (hfail1 : solver 1 (record_pairs [] (generate_random_assignment N R shuffled)) = none) :
    opt_loop solver N R t (n + 1) hist acc = Except.error OptError.optimizationInfeasible
    ∧ opt_generate_assignments solver N R T shuffled
        = Except.error OptError.optimizationInfeasible := by
  have h1 : ∀ (t' n' : ℕ) (hist' : List (ℕ × ℕ)) (acc' : Schedule),
      solver t' hist' = none →
      opt_loop solver N R t' (n' + 1) hist' acc' = Except.error OptError.optimizationInfeasible := by
    intro t' n' hist' acc' hf
    show (match optimize_round (solver t' hist') N R with
          | Except.error e => Except.error e
          | Except.ok a =>
              if a.isEmpty then Except.ok acc'
              else opt_loop solver N R (t' + 1) n' (record_pairs hist' a) (acc' ++ [a]))
        = _
    rw [hf]
    rfl
  refine ⟨h1 t n hist acc hfail, ?_⟩
  obtain ⟨m, hm⟩ : ∃ m, T - 1 = m + 1 := ⟨T - 2, by omega⟩
  show opt_loop solver N R 1 (T - 1) (record_pairs [] (generate_random_assignment N R shuffled))
      [generate_random_assignment N R shuffled] = _
  rw [hm]
  exact h1 1 m _ _ hfail1

/-- C2 witness: the amended theorem applied with the always-failing solver at
N = 2, R = 1, T = 2. -/
theorem opt_error_propagates_witness :
    ((fun (_ : ℕ) (_ : List (ℕ × ℕ)) => (none : Option (ℕ → ℕ → Bool))) 1 [(1, 2)] = none
      ∧ 2 ≤ 2)
    ∧ (opt_loop (fun _ _ => none) 2 1 1 (0 + 1) [(1, 2)] [[[1, 2]]]
        = Except.error OptError.optimizationInfeasible
      ∧ opt_generate_assignments (fun _ _ => none) 2 1 2 [1, 2]
        = Except.error OptError.optimizationInfeasible) :=
  ⟨⟨rfl, by decide⟩,
    opt_error_propagates (fun _ _ => none) 2 1 2 1 0 [(1, 2)] [[[1, 2]]] [1, 2]
      rfl (by decide) rfl⟩

/-- C3: the PairSeenSet membership used by the objective is NOT
order-independent.  With N = 2, R = 1 and the (reachable) round-1 shuffle
[2, 1], round 1 is the single room [2, 1]; the pair of participants 1 and 2
co-occurs there (its frozenset count is 1), and it is recorded in
`self.history` as the ordered tuple (2, 1).  The round-2 objective enumerates
`itertools.combinations(self.participants, 2)` — which yields (1, 2) from the
ascending participant list — and looks up `(1, 2) in self.history`, giving
objective weight 0 instead of the weight 1 the claim (and the spec's
unordered PairSeenSet) requires. -/
theorem pair_seen_order_bug :
    generate_random_assignment 2 1 [2, 1] = [[2, 1]]
    ∧ record_pairs [] (generate_random_assignment 2 1 [2, 1]) = [(2, 1)]
    ∧ (pairsM [2, 1]).count (fkey 1 2) = 1
    ∧ (1, 2) ∈ listPairs (participants_list 2)
    ∧ objective_coeff (record_pairs [] (generate_random_assignment 2 1 [2, 1])) (1, 2) = 0 :=
  ⟨rfl, rfl, by decide, by decide, by decide⟩

/-- C5 witness: the theorem applied at N = 5, R = 3 (base 1, remainder 2). -/
theorem get_room_size_spec_witness :
    (1 ≤ 3 ∧ 3 ≤ 5)
    ∧ ((∀ room, 1 ≤ room → room ≤ 5 % 3 → get_room_size 5 3 room = 5 / 3 + 1)
      ∧ (∀ room, 5 % 3 < room → get_room_size 5 3 room = 5 / 3)
      ∧ (∑ room ∈ Finset.Icc 1 3, get_room_size 5 3 room) = 5
      ∧ (caps_list 5 3).count (5 / 3 + 1) = 5 % 3
      ∧ (∀ r1 r2, get_room_size 5 3 r1 ≤ get_room_size 5 3 r2 + 1)) :=
  ⟨⟨by decide, by decide⟩, get_room_size_spec 5 3 (by decide) (by decide)⟩

/-- C9 witness: the theorem applied to the one-round one-room schedule
[[[1, 2]]], whose only pair occurs once. -/
theorem no_repeat_fairness_spec_witness :
    ((all_pairs [[[1, 2]]]).Nodup ∧ all_pairs [[[1, 2]]] ≠ 0)
    ∧ ((∀ k ∈ pair_freq_support [[[1, 2]]], calc_pair_frequencies [[[1, 2]]] k = 1)
      ∧ freq_mean [[[1, 2]]] = some 1 ∧ freq_var [[[1, 2]]] = some 0) :=
  ⟨⟨by decide, by decide⟩,
    no_repeat_fairness_spec [[[1, 2]]] (by decide) (by decide)⟩
